import Mathlib

/-!
Verification of the daingGrader mobile client against its design note.

The development shallowly embeds the logic of the network-access layer
(`src/DaingApp/services/api.ts`, `src/unnamed/part_000`), the URL
configuration (`src/DaingApp/constants/config.ts`, `src/unnamed/part_005`,
`src/unnamed/part_006`) and the history screen state logic
(`src/DaingApp/components/HistoryScreen.tsx`) as executable Lean
definitions, and proves the behavioural properties stated in the design
note about them.

Modelling conventions:
  - JavaScript strings are Lean `String`s; the handful of string methods
    used by the code (`trim`, the anchored trailing-slash-stripping
    `replace`, `includes`) are re-implemented on `List Char`.
  - `axios` transports are functions from an attempt index to an
    `Except NetError response`; a thrown axios error is the `.error` case.
  - Promise timing (the inter-retry delay, request timeouts) is not
    modelled; only the sequence of attempts and their outcomes is.
  - React `useState` state is gathered in an explicit `HistState` record;
    each event handler becomes a state-transition function returning the
    new state together with the alert it raises, if any.
  - `new Date(entry.timestamp)` is modelled by storing the parsed instant
    (minutes since the Unix epoch) in the entry; local calendar dates are
    obtained by adding the device timezone offset and converting the day
    number to a civil date.
-/

namespace DaingGrader

/-! ## JavaScript string primitives -/

/-- Whitespace characters removed by `String.prototype.trim` (the common
ASCII cases plus NBSP; the exact set does not affect any claim). -/
def jsWhitespaceChar (c : Char) : Bool :=
  c == ' ' || c == '\t' || c == '\n' || c == '\r' ||
  c == '\x0b' || c == '\x0c' || c == ' '

/-- Drop the longest suffix of characters satisfying `p` (the effect of
`str.replace` with an anchored trailing character-class pattern). -/
def rstripChars (p : Char → Bool) (l : List Char) : List Char :=
  (l.reverse.dropWhile p).reverse

/-- `String.prototype.trim` on the character list. -/
def trimChars (l : List Char) : List Char :=
  rstripChars jsWhitespaceChar (l.dropWhile jsWhitespaceChar)

/-- `normalizeUrl` from `src/DaingApp/services/api.ts` line 4 (also
`src/unnamed/part_000` line 9): `url.trim()` followed by stripping every
trailing slash. -/
def normalizeUrl (s : String) : String :=
  String.mk (rstripChars (fun c => c == '/') (trimChars s.data))

/-- `String.prototype.startsWith`-style Boolean matcher used to implement
`includes`. -/
def isPrefixOfB : List Char → List Char → Bool
  | [], _ => true
  | _ :: _, [] => false
  | c :: cs, d :: ds => c == d && isPrefixOfB cs ds

/-- Boolean infix test on character lists. -/
def isInfixOfB (p : List Char) : List Char → Bool
  | [] => isPrefixOfB p []
  | c :: ds => isPrefixOfB p (c :: ds) || isInfixOfB p ds

/-- `String.prototype.includes`. -/
def strIncludes (s pat : String) : Bool :=
  isInfixOfB pat.data s.data

/-! ### Facts about `dropWhile`-based stripping -/

theorem head?_dropWhile_false {α : Type} {p : α → Bool} :
    ∀ {l : List α} {c : α}, (l.dropWhile p).head? = some c → p c = false := by
  intro l
  induction l with
  | nil => intro c h; simp [List.dropWhile] at h
  | cons a as ih =>
    intro c h
    by_cases hp : p a
    · exact ih (by simpa [List.dropWhile_cons, hp] using h)
    · simp [List.dropWhile_cons, hp] at h
      subst h
      simpa using hp

theorem dropWhile_eq_self_of_head {α : Type} {p : α → Bool} {l : List α}
    (h : ∀ c, l.head? = some c → p c = false) : l.dropWhile p = l := by
  cases l with
  | nil => rfl
  | cons a as => simp [List.dropWhile_cons, h a rfl]

theorem rstripChars_getLast? {p : Char → Bool} {l : List Char} {c : Char}
    (h : (rstripChars p l).getLast? = some c) : p c = false := by
  apply head?_dropWhile_false (l := l.reverse)
  rw [rstripChars] at h
  rwa [← List.head?_reverse, List.reverse_reverse] at h

theorem rstripChars_eq_self_of_getLast? {p : Char → Bool} {l : List Char}
    (h : ∀ c, l.getLast? = some c → p c = false) : rstripChars p l = l := by
  unfold rstripChars
  rw [dropWhile_eq_self_of_head, List.reverse_reverse]
  intro c hc
  exact h c (by rwa [List.head?_reverse] at hc)

theorem rstripChars_isPre {p : Char → Bool} (l : List Char) :
    rstripChars p l <+: l := by
  rw [← List.reverse_suffix]
  unfold rstripChars
  rw [List.reverse_reverse]
  exact List.dropWhile_suffix p

theorem head?_of_isPre {α : Type} {l₁ l₂ : List α} (h : l₁ <+: l₂)
    (hne : l₁ ≠ []) : l₂.head? = l₁.head? := by
  obtain ⟨t, rfl⟩ := h
  exact List.head?_append_of_ne_nil _ hne

/-- Every character at the head of the trimmed-and-stripped list is
non-whitespace. -/
theorem normalizeUrl_head {u : String} {c : Char}
    (h : (normalizeUrl u).data.head? = some c) : jsWhitespaceChar c = false := by
  have hpre₁ : rstripChars (fun c => c == '/') (trimChars u.data) <+:
      trimChars u.data := rstripChars_isPre _
  have hpre₂ : rstripChars jsWhitespaceChar (u.data.dropWhile jsWhitespaceChar) <+:
      u.data.dropWhile jsWhitespaceChar := rstripChars_isPre _
  have hne : (normalizeUrl u).data ≠ [] := by
    intro hnil
    rw [hnil] at h
    exact Option.noConfusion h
  have h1 : (trimChars u.data).head? = some c := by
    rw [head?_of_isPre hpre₁ hne] at *
    exact h
  have hne₂ : trimChars u.data ≠ [] := by
    intro hnil
    rw [trimChars] at hnil
    rw [trimChars, hnil] at h1
    exact Option.noConfusion h1
  have h2 : (u.data.dropWhile jsWhitespaceChar).head? = some c := by
    rw [trimChars] at h1 hne₂
    rw [head?_of_isPre hpre₂ hne₂]
    exact h1
  exact head?_dropWhile_false h2

/-- Claim C2 (amended): `normalizeUrl` never ends with a slash, and it is
idempotent on every input whose normalized form does not end in
whitespace (in particular on every whitespace-free URL). -/
theorem normalizeUrl_no_trailing_slash_and_idempotent (u : String) :
    ((normalizeUrl u).data.getLast?.all (fun c => !(c == '/')) = true) ∧
    ((normalizeUrl u).data.getLast?.all (fun c => !jsWhitespaceChar c) = true →
      normalizeUrl (normalizeUrl u) = normalizeUrl u) := by
  constructor
  · cases hl : (normalizeUrl u).data.getLast? with
    | none => rfl
    | some c =>
      have := rstripChars_getLast? (p := fun c => c == '/') (l := trimChars u.data) hl
      simp [Option.all, this]
  · intro hws
    have hlast : ∀ c, (normalizeUrl u).data.getLast? = some c →
        jsWhitespaceChar c = false := by
      intro c hc
      rw [hc] at hws
      simpa [Option.all] using hws
    have hdrop : (normalizeUrl u).data.dropWhile jsWhitespaceChar =
        (normalizeUrl u).data :=
      dropWhile_eq_self_of_head (fun c hc => normalizeUrl_head hc)
    have hr1 : rstripChars jsWhitespaceChar (normalizeUrl u).data =
        (normalizeUrl u).data :=
      rstripChars_eq_self_of_getLast? hlast
    have hr2 : rstripChars (fun c => c == '/') (normalizeUrl u).data =
        (normalizeUrl u).data := by
      apply rstripChars_eq_self_of_getLast?
      intro c hc
      exact rstripChars_getLast? (p := fun c => c == '/')
        (l := trimChars u.data) hc
    show String.mk _ = _
    rw [trimChars, hdrop, hr1, hr2]

/-- Witness for the amended claim C2 at a concrete URL. -/
theorem normalizeUrl_no_trailing_slash_and_idempotent_witness :
    ((normalizeUrl "http://192.168.1.108:8000/").data.getLast?.all
        (fun c => !(c == '/')) = true) ∧
    normalizeUrl (normalizeUrl "http://192.168.1.108:8000/") =
      normalizeUrl "http://192.168.1.108:8000/" :=
  ⟨(normalizeUrl_no_trailing_slash_and_idempotent "http://192.168.1.108:8000/").1,
   (normalizeUrl_no_trailing_slash_and_idempotent "http://192.168.1.108:8000/").2
     (by decide)⟩

/-- Claim C2 counterexample: stripping the trailing slash can expose
trailing whitespace, so normalizing twice differs from normalizing once
on an input with a space before the final slash. -/
theorem normalizeUrl_not_idempotent_counterexample :
    normalizeUrl (normalizeUrl "http://192.168.1.108:8000 /") ≠
      normalizeUrl "http://192.168.1.108:8000 /" := by
  decide

/-! ## Network access layer (`src/unnamed/part_000`, `src/DaingApp/services/api.ts`) -/

/-- An error thrown by an axios call: its `code` and `message` fields,
which are all the retry/translation logic inspects. -/
structure NetError where
  code : String
  message : String
deriving DecidableEq

/-- A successful axios response; `data` stands for the response blob. -/
structure AxiosResponse where
  data : String
deriving DecidableEq

instance {ε α : Type} [DecidableEq ε] [DecidableEq α] :
    DecidableEq (Except ε α) := fun a b =>
  match a, b with
  | .ok x, .ok y =>
    if h : x = y then .isTrue (congrArg Except.ok h) else
      .isFalse (fun hc => h (Except.ok.inj hc))
  | .ok _, .error _ => .isFalse (fun hc => Except.noConfusion hc)
  | .error _, .ok _ => .isFalse (fun hc => Except.noConfusion hc)
  | .error x, .error y =>
    if h : x = y then .isTrue (congrArg Except.error h) else
      .isFalse (fun hc => h (Except.error.inj hc))

/-- The transient-failure test of `withRetry` (`src/unnamed/part_000`
lines 24 to 29): network error codes, aborted connections, and messages
mentioning a network error or timeout. -/
def isTransientNetworkError (e : NetError) : Bool :=
  e.code == "ERR_NETWORK" || e.code == "ECONNABORTED" ||
  strIncludes e.message "Network Error" || strIncludes e.message "timeout"

/-- The retry loop body of `withRetry` (`src/unnamed/part_000` lines
18 to 38). `i` is the current attempt index and the second argument the
number of loop iterations still allowed; the result pairs the final
outcome with the number of attempts performed. When the iteration budget
is exhausted without a single attempt (only possible for `retries = 0`)
the source throws its `null`-initialised `lastError`, modelled as
`.error none`. -/
def withRetryGo {α : Type} (fn : Nat → Except NetError α) :
    Nat → Nat → Except (Option NetError) α × Nat
  | _, 0 => (.error none, 0)
  | i, remaining + 1 =>
    match fn i with
    | .ok v => (.ok v, 1)
    | .error e =>
      if isTransientNetworkError e && remaining != 0 then
        let r := withRetryGo fn (i + 1) remaining
        (r.1, r.2 + 1)
      else (.error (some e), 1)

/-- `withRetry` (`src/unnamed/part_000` lines 12 to 40). The `delay`
argument only affects timing, which is not modelled. -/
def withRetry {α : Type} (fn : Nat → Except NetError α) (retries : Nat)
    (delay : Nat) : Except (Option NetError) α × Nat :=
  let _ := delay
  withRetryGo fn 0 retries

/-- The catch-clause of `analyzeFish` (`src/unnamed/part_000` lines
80 to 95): translate the failure into a user-facing message. The `none`
case (null `lastError`) is unreachable for `retries = 3` and maps to the
generic fallback. -/
def translateAnalyzeError : Option NetError → String
  | none => "Failed to analyze image"
  | some e =>
    if e.code == "ECONNABORTED" || strIncludes e.message "timeout" then
      "Request timed out. Please check your server IP address and try again."
    else if e.code == "ERR_NETWORK" || strIncludes e.message "Network Error" then
      "Cannot connect to server. Please verify the IP address is correct."
    else if e.message == "" then "Failed to analyze image" else e.message

/-- `analyzeFish` (`src/unnamed/part_000` lines 42 to 96): POST the form
through `withRetry` with 3 attempts and a 1000 ms delay, then convert the
response blob to a data URL with a `FileReader` (modelled by
`readAsDataURL`, which may fail). Returns the outcome together with the
number of attempts performed. -/
def analyzeFish (post : Nat → Except NetError AxiosResponse)
    (readAsDataURL : String → Option String) : Except String String × Nat :=
  let r := withRetry post 3 1000
  match r.1 with
  | .ok resp =>
    (match readAsDataURL resp.data with
     | some s => .ok s
     | none => .error "Failed to convert image", r.2)
  | .error e => (.error (translateAnalyzeError e), r.2)

theorem withRetryGo_attempts_le {α : Type} (fn : Nat → Except NetError α) :
    ∀ (remaining i : Nat), (withRetryGo fn i remaining).2 ≤ remaining := by
  intro remaining
  induction remaining with
  | zero => intro i; simp [withRetryGo]
  | succ n ih =>
    intro i
    unfold withRetryGo
    cases fn i with
    | ok v => simp
    | error e =>
      by_cases hc : isTransientNetworkError e && n != 0
      · simpa [hc] using Nat.succ_le_succ (ih (i + 1))
      · simp [hc]

/-- Claim C1: `analyzeFish` succeeds after exactly 3 attempts against a
transport that fails transiently twice and then succeeds; it fails after
exactly 1 attempt against a transport that always throws a well-formed
non-transient server error; and no transport is ever attempted more than
3 times. -/
theorem analyzeFish_retry_policy
    (post₁ : Nat → Except NetError AxiosResponse) (e₀ e₁ : NetError)
    (resp : AxiosResponse) (rd : String → Option String) (s : String)
    (h₀ : post₁ 0 = .error e₀) (ht₀ : isTransientNetworkError e₀ = true)
    (h₁ : post₁ 1 = .error e₁) (ht₁ : isTransientNetworkError e₁ = true)
    (h₂ : post₁ 2 = .ok resp) (hrd : rd resp.data = some s)
    (post₂ : Nat → Except NetError AxiosResponse) (e : NetError)
    (hsrv : ∀ i, post₂ i = .error e) (hnt : isTransientNetworkError e = false) :
    analyzeFish post₁ rd = (.ok s, 3) ∧
    analyzeFish post₂ rd = (.error (translateAnalyzeError (some e)), 1) ∧
    ∀ (post : Nat → Except NetError AxiosResponse)
      (rd₂ : String → Option String), (analyzeFish post rd₂).2 ≤ 3 := by
  refine ⟨?_, ?_, ?_⟩
  · simp [analyzeFish, withRetry, withRetryGo, h₀, ht₀, h₁, ht₁, h₂, hrd]
  · simp [analyzeFish, withRetry, withRetryGo, hsrv 0, hnt]
  · intro post rd₂
    have h := withRetryGo_attempts_le post 3 0
    unfold analyzeFish withRetry
    cases hr : (withRetryGo post 0 3).1 with
    | ok v =>
      cases hrd₂ : rd₂ v.data <;> simpa [hr, hrd₂] using h
    | error e => simpa [hr] using h

/-- Concrete transport for the witness: two transient network failures,
then a successful response. -/
def retryPost₁ : Nat → Except NetError AxiosResponse := fun i =>
  if i < 2 then .error ⟨"ERR_NETWORK", "Network Error"⟩
  else .ok ⟨"blobdata"⟩

/-- Concrete transport for the witness: always a well-formed 422 server
error (classified as non-transient). -/
def retryPost₂ : Nat → Except NetError AxiosResponse := fun _ =>
  .error ⟨"ERR_BAD_REQUEST", "Request failed with status code 422"⟩

/-- Concrete `FileReader` model for the witness. -/
def retryRead : String → Option String := fun b =>
  some ("data:image/jpeg;base64," ++ b)

/-- Witness for claim C1 at concrete transports. -/
theorem analyzeFish_retry_policy_witness :
    analyzeFish retryPost₁ retryRead = (.ok "data:image/jpeg;base64,blobdata", 3) ∧
    analyzeFish retryPost₂ retryRead =
      (.error "Request failed with status code 422", 1) := by
  have h := analyzeFish_retry_policy retryPost₁
    ⟨"ERR_NETWORK", "Network Error"⟩ ⟨"ERR_NETWORK", "Network Error"⟩
    ⟨"blobdata"⟩ retryRead "data:image/jpeg;base64,blobdata"
    (by decide) (by decide) (by decide) (by decide) (by decide) (by decide)
    retryPost₂ ⟨"ERR_BAD_REQUEST", "Request failed with status code 422"⟩
    (fun i => rfl) (by decide)
  have ht : translateAnalyzeError
      (some ⟨"ERR_BAD_REQUEST", "Request failed with status code 422"⟩) =
      "Request failed with status code 422" := by decide
  exact ⟨h.1, by rw [← ht]; exact h.2.1⟩

/-! ## History fetch (`fetchHistory`) -/

/-- Minimal model of an entry of the history collection. `timestampUtcMin`
is the instant denoted by the ISO-8601 `timestamp` string, in minutes
since the Unix epoch, as produced by `new Date(entry.timestamp)`. -/
structure HistoryEntry where
  id : String
  url : String
  timestampUtcMin : Int
  folder : Option String
deriving DecidableEq

/-- The shape of the `entries` field of a history response: either a JSON
array of entries, or any non-array JSON value. -/
inductive JsonEntriesField where
  | jarray (es : List HistoryEntry)
  | jother
deriving DecidableEq

/-- A delivered history response body: the `entries` field may be absent
(`none`) or present with either shape. -/
structure HistoryResponseData where
  entries : Option JsonEntriesField
deriving DecidableEq

/-- `fetchHistory` from `src/unnamed/part_000` lines 166 to 182 (the
silent-degrade variant): a well-formed `entries` array is returned as is;
a missing or non-array `entries` field yields `[]`; every transport
failure also yields `[]`. -/
def fetchHistorySilent (get : Except NetError HistoryResponseData) :
    List HistoryEntry :=
  match get with
  | .ok d =>
    match d.entries with
    | some (.jarray es) => es
    | _ => []
  | .error _ => []

/-- The catch-clause translation of `fetchHistory` in
`src/DaingApp/services/api.ts` lines 139 to 154. -/
def translateHistoryError (e : NetError) : String :=
  if e.code == "ECONNABORTED" || strIncludes e.message "timeout" then
    "Request timed out. Please check your server IP address and try again."
  else if e.code == "ERR_NETWORK" || strIncludes e.message "Network Error" then
    "Cannot connect to server. Please verify the IP address is correct."
  else "Unable to load history. " ++
    (if e.message == "" then "Unknown error" else e.message)

/-- `fetchHistory` from `src/DaingApp/services/api.ts` lines 125 to 156
(the throwing variant): malformed payloads still yield `.ok []`; only
transport failures are translated and rethrown. -/
def fetchHistoryThrowing (get : Except NetError HistoryResponseData) :
    Except String (List HistoryEntry) :=
  match get with
  | .ok d =>
    .ok (match d.entries with
         | some (.jarray es) => es
         | _ => [])
  | .error e => .error (translateHistoryError e)

/-- Claim C6: on a delivered but malformed payload (missing `entries`
field, or `entries` not an array) both `fetchHistory` variants return the
empty list without throwing, and the silent-degrade variant returns the
empty list on every transport failure as well. -/
theorem fetchHistory_malformed_payload (d : HistoryResponseData)
    (hmal : d.entries = none ∨ d.entries = some .jother) :
    fetchHistorySilent (.ok d) = [] ∧
    fetchHistoryThrowing (.ok d) = .ok [] ∧
    ∀ e : NetError, fetchHistorySilent (.error e) = [] := by
  refine ⟨?_, ?_, fun e => rfl⟩ <;>
    rcases hmal with h | h <;> simp [fetchHistorySilent, fetchHistoryThrowing, h]

/-- Witness for claim C6 at a payload with a missing `entries` field. -/
theorem fetchHistory_malformed_payload_witness :
    fetchHistorySilent (.ok ⟨none⟩) = [] ∧
    fetchHistoryThrowing (.ok ⟨none⟩) = .ok [] ∧
    fetchHistorySilent (.error ⟨"ERR_NETWORK", "Network Error"⟩) = [] := by
  have h := fetchHistory_malformed_payload ⟨none⟩ (Or.inl rfl)
  exact ⟨h.1, h.2.1, h.2.2 _⟩

/-! ## URL configuration (`src/DaingApp/constants/config.ts`,
`src/unnamed/part_005`, `src/unnamed/part_006`) -/

/-- The endpoint record built by `getServerUrls` in
`src/DaingApp/constants/config.ts`. -/
structure ServerUrls where
  analyze : String
  uploadDataset : String
  history : String
deriving DecidableEq

/-- `getServerUrls` from `src/DaingApp/constants/config.ts` lines 5 to 9:
plain suffix concatenation, with no normalization of the base URL. -/
def getServerUrls (baseUrl : String) : ServerUrls :=
  ⟨baseUrl ++ "/analyze", baseUrl ++ "/upload-dataset", baseUrl ++ "/history"⟩

/-- `normalizeBaseUrl` from `src/unnamed/part_005` lines 21 to 22; its
body is identical to `normalizeUrl`. -/
def normalizeBaseUrl (baseUrl : String) : String :=
  String.mk (rstripChars (fun c => c == '/') (trimChars baseUrl.data))

/-- Default base URL of the `src/unnamed/part_005` revision. -/
def DEFAULT_SERVER_BASE_URL : String := "http://192.168.1.109:8000"

/-- Default base URL of the `src/unnamed/part_006` revision. -/
def DEFAULT_SERVER_BASE_URL6 : String := "http://10.195.236.106:8000"

/-- The endpoint record built by `getServerUrls` in
`src/unnamed/part_005`. -/
structure ServerUrlsV5 where
  analyze : String
  history : String
  analytics : String
  autoDataset : String
deriving DecidableEq

/-- `getServerUrls` from `src/unnamed/part_005` lines 25 to 33: the base
URL (or the default, when the argument is falsy, i.e. empty) is
normalized before the suffixes are appended. -/
def getServerUrlsV5 (baseUrl : String) : ServerUrlsV5 :=
  let normalized :=
    normalizeBaseUrl (if baseUrl == "" then DEFAULT_SERVER_BASE_URL else baseUrl)
  ⟨normalized ++ "/analyze", normalized ++ "/history",
   normalized ++ "/analytics/summary", normalized ++ "/auto-dataset"⟩

/-- `getServerUrls` from `src/unnamed/part_006` lines 8 to 15: like the
`part_005` revision but with the `upload-dataset` endpoint. -/
def getServerUrlsV6 (baseUrl : String) : ServerUrls :=
  let normalized :=
    normalizeBaseUrl (if baseUrl == "" then DEFAULT_SERVER_BASE_URL6 else baseUrl)
  ⟨normalized ++ "/analyze", normalized ++ "/upload-dataset",
   normalized ++ "/history"⟩

theorem trimChars_eq_self_parts {l : List Char} (h : trimChars l = l) :
    l.dropWhile jsWhitespaceChar = l ∧ rstripChars jsWhitespaceChar l = l := by
  have hsuff : l.dropWhile jsWhitespaceChar <:+ l := List.dropWhile_suffix _
  have hpre : trimChars l <+: l.dropWhile jsWhitespaceChar :=
    rstripChars_isPre _
  have hlen : (l.dropWhile jsWhitespaceChar).length = l.length := by
    have h1 := hsuff.length_le
    have h2 := hpre.length_le
    rw [h] at h2
    omega
  have hdrop := hsuff.eq_of_length hlen
  refine ⟨hdrop, ?_⟩
  have := h
  rw [trimChars, hdrop] at this
  exact this

theorem head_not_p_of_dropWhile_eq_self {α : Type} {p : α → Bool}
    {l : List α} (h : l.dropWhile p = l) :
    ∀ c, l.head? = some c → p c = false := by
  cases l with
  | nil => intro c hc; exact Option.noConfusion hc
  | cons a as =>
    intro c hc
    have hca : c = a := by simpa using hc.symm
    subst hca
    by_cases hp : p c
    · rw [List.dropWhile_cons, if_pos hp] at h
      have := congrArg List.length h
      have hle : (as.dropWhile p).length ≤ as.length :=
        (List.dropWhile_suffix p).length_le
      simp at this
      omega
    · simpa using hp

theorem normalizeUrl_append_slash {b : String}
    (h : trimChars b.data = b.data) :
    normalizeUrl (b ++ "/") = normalizeUrl b := by
  have hdata : (b ++ "/").data = b.data ++ ['/'] := by
    rw [String.data_append]
  have hparts := trimChars_eq_self_parts h
  have hdrop : (b.data ++ ['/']).dropWhile jsWhitespaceChar =
      b.data ++ ['/'] := by
    apply dropWhile_eq_self_of_head
    intro c hc
    rw [List.head?_concat] at hc
    cases hb : b.data.head? with
    | none => rw [hb] at hc; simp at hc; subst hc; decide
    | some a =>
      rw [hb] at hc
      simp at hc
      subst hc
      exact head_not_p_of_dropWhile_eq_self hparts.1 _ hb
  have hrstrip : rstripChars jsWhitespaceChar (b.data ++ ['/']) =
      b.data ++ ['/'] := by
    apply rstripChars_eq_self_of_getLast?
    intro c hc
    rw [List.getLast?_concat] at hc
    have : c = '/' := by simpa using hc.symm
    subst this
    decide
  have htrim : trimChars (b.data ++ ['/']) = b.data ++ ['/'] := by
    rw [trimChars, hdrop, hrstrip]
  have hslash : rstripChars (fun c => c == '/') (b.data ++ ['/']) =
      rstripChars (fun c => c == '/') b.data := by
    unfold rstripChars
    rw [List.reverse_append]
    simp [List.dropWhile_cons]
  show String.mk _ = String.mk _
  rw [hdata, htrim, hslash, h]

theorem append_slash_ne_empty (b : String) : (b ++ "/") ≠ "" := by
  intro hc
  have : (b ++ "/").data = ("" : String).data := by rw [hc]
  rw [String.data_append] at this
  simp at this

/-- Claim C3 (amended): for the normalizing `getServerUrls` revisions
(`src/unnamed/part_005` and `src/unnamed/part_006`), a non-empty,
whitespace-trimmed base URL with a trailing slash yields exactly the
same endpoint URLs as the same base URL without it; the
`src/DaingApp/constants/config.ts` revision does not normalize, so there
the two base URLs yield different endpoint URLs (see the
counterexample). -/
theorem getServerUrls_normalized_trailing_slash (b : String)
    (hne : b ≠ "") (htrim : trimChars b.data = b.data) :
    getServerUrlsV5 (b ++ "/") = getServerUrlsV5 b ∧
    getServerUrlsV6 (b ++ "/") = getServerUrlsV6 b := by
  have hb : (b == "") = false := by
    cases hbe : b == "" with
    | false => rfl
    | true => exact absurd (by simpa using hbe) hne
  have hbs : ((b ++ "/") == "") = false := by
    cases hbe : (b ++ "/") == "" with
    | false => rfl
    | true => exact absurd (by simpa using hbe) (append_slash_ne_empty b)
  have hnorm : normalizeBaseUrl (b ++ "/") = normalizeBaseUrl b := by
    show normalizeUrl (b ++ "/") = normalizeUrl b
    exact normalizeUrl_append_slash htrim
  constructor
  · simp only [getServerUrlsV5, hb, hbs, Bool.false_eq_true, if_false, hnorm]
  · simp only [getServerUrlsV6, hb, hbs, Bool.false_eq_true, if_false, hnorm]

/-- Witness for the amended claim C3 at a concrete host-and-port base
URL. -/
theorem getServerUrls_normalized_trailing_slash_witness :
    getServerUrlsV5 ("http://192.168.1.108:8000" ++ "/") =
      getServerUrlsV5 "http://192.168.1.108:8000" ∧
    getServerUrlsV6 ("http://192.168.1.108:8000" ++ "/") =
      getServerUrlsV6 "http://192.168.1.108:8000" :=
  getServerUrls_normalized_trailing_slash "http://192.168.1.108:8000"
    (by decide) (by decide)

/-- Claim C3 counterexample: the `config.ts` revision of `getServerUrls`
keeps the trailing slash, so the derived endpoint URLs differ (a double
slash appears before each suffix). -/
theorem getServerUrls_trailing_slash_counterexample :
    getServerUrls "http://192.168.1.108:8000/" ≠
      getServerUrls "http://192.168.1.108:8000" ∧
    (getServerUrls "http://192.168.1.108:8000/").analyze =
      "http://192.168.1.108:8000//analyze" := by
  constructor
  · intro hc
    have := congrArg ServerUrls.analyze hc
    simp [getServerUrls] at this
  · rfl

/-! ## Local-date grouping and grid chunking
(`src/DaingApp/components/HistoryScreen.tsx` lines 45 to 86) -/

/-- A civil calendar date, as the grouping key
`year-month-day` computed from the local date components. -/
abbrev DateKey := Int × Nat × Nat

/-- Days since the Unix epoch of a civil date (standard era-based
calendar conversion, mirroring what `new Date(y, m, d)` denotes). -/
def daysFromCivil (y : Int) (m d : Nat) : Int :=
  let y2 : Int := if m ≤ 2 then y - 1 else y
  let era : Int := y2.fdiv 400
  let yoe : Nat := (y2 - era * 400).toNat
  let mp : Nat := (m + 9) % 12
  let doy : Nat := (153 * mp + 2) / 5 + d - 1
  let doe : Nat := yoe * 365 + yoe / 4 - yoe / 100 + doy
  era * 146097 + (doe : Int) - 719468

/-- Civil date of a day count since the Unix epoch (inverse of
`daysFromCivil`); models the `getFullYear`, `getMonth() + 1`,
`getDate` components read off a `Date`. -/
def civilFromDays (z0 : Int) : DateKey :=
  let z : Int := z0 + 719468
  let era : Int := z.fdiv 146097
  let doe : Nat := (z - era * 146097).toNat
  let yoe : Nat := (doe - doe / 1460 + doe / 36524 - doe / 146096) / 365
  let y : Int := (yoe : Int) + era * 400
  let doy : Nat := doe - (365 * yoe + yoe / 4 - yoe / 100)
  let mp : Nat := (5 * doy + 2) / 153
  let d : Nat := doy - (153 * mp + 2) / 5 + 1
  let m : Nat := if mp < 10 then mp + 3 else mp - 9
  (if m ≤ 2 then y + 1 else y, m, d)

/-- The grouping key of an entry (`HistoryScreen.tsx` lines 59 to 64):
the local calendar date components of the parsed timestamp, for a device
with the given timezone offset (minutes to add to UTC). -/
def entryLocalKey (tzOffsetMin : Int) (e : HistoryEntry) : DateKey :=
  civilFromDays ((e.timestampUtcMin + tzOffsetMin).fdiv 1440)

/-- One step of building the date buckets: append the entry to the first
bucket with this key, or append a fresh bucket at the end (the JS `Map`
keeps keys in insertion order). -/
def upsertBucket {κ α : Type} [DecidableEq κ] (k : κ) (e : α) :
    List (κ × List α) → List (κ × List α)
  | [] => [(k, [e])]
  | (k9, es) :: rest =>
    if k9 = k then (k9, es ++ [e]) :: rest
    else (k9, es) :: upsertBucket k e rest

/-- The `Map`-building `forEach` of `sections`
(`HistoryScreen.tsx` lines 57 to 69). -/
def groupByKey {κ α : Type} [DecidableEq κ] (key : α → κ) (l : List α) :
    List (κ × List α) :=
  l.foldl (fun acc e => upsertBucket (key e) e acc) []

/-- Descending lexicographic comparison of date keys, the model of the
string comparison `a[0] > b[0]` on zero-padded `y-m-d` keys. -/
def dateKeyGtb (a b : DateKey) : Bool :=
  if a.1 = b.1 then
    if a.2.1 = b.2.1 then decide (a.2.2 > b.2.2)
    else decide (a.2.1 > b.2.1)
  else decide (a.1 > b.1)

/-- Sorted insertion used to model `Array.prototype.sort` with the
descending comparator of `sections` (line 72). -/
def insertByDesc {β : Type} (gt : β → β → Bool) (x : β) :
    List β → List β
  | [] => [x]
  | y :: ys => if gt x y then x :: y :: ys else y :: insertByDesc gt x ys

/-- Sort (descending by the comparator) as iterated insertion. -/
def sortByDesc {β : Type} (gt : β → β → Bool) (l : List β) : List β :=
  l.foldr (insertByDesc gt) []

/-- The fueled chunking loop: `fuel` bounds the number of rows produced;
each row takes `k + 1` items. -/
def chunkGo {α : Type} (k : Nat) : Nat → List α → List (List α)
  | 0, _ => []
  | _, [] => []
  | fuel + 1, x :: xs => (x :: xs.take k) :: chunkGo k fuel (xs.drop k)

/-- `chunkEntries` (`HistoryScreen.tsx` lines 45 to 54): split a list
into consecutive rows of `chunkSize` items, the last row possibly
shorter. The JS loop does not terminate for `chunkSize = 0`; the
component only ever calls it with 3, and the model returns `[]` there. -/
def chunkEntries {α : Type} (items : List α) (chunkSize : Nat) :
    List (List α) :=
  match chunkSize with
  | 0 => []
  | k + 1 => chunkGo k items.length items

/-- `sections` (`HistoryScreen.tsx` lines 56 to 86): bucket the entries
by local date key, sort the buckets by key descending, and chunk each
bucket into rows of 3. -/
def sections (tzOffsetMin : Int) (entries : List HistoryEntry) :
    List (DateKey × List (List HistoryEntry)) :=
  (sortByDesc (fun p q => dateKeyGtb p.1 q.1)
      (groupByKey (entryLocalKey tzOffsetMin) entries)).map
    (fun p => (p.1, chunkEntries p.2 3))

/-! ### Facts about the grouping fold -/

/-- The bucket currently associated with key `k` (the `map.get(key)` of
the source). -/
def bucketOf {κ α : Type} [DecidableEq κ] (k : κ)
    (acc : List (κ × List α)) : Option (List α) :=
  (acc.find? (fun p => decide (p.1 = k))).map Prod.snd

theorem bucketOf_upsert {κ α : Type} [DecidableEq κ] (k k9 : κ) (e : α) :
    ∀ acc : List (κ × List α),
      bucketOf k (upsertBucket k9 e acc) =
        if k9 = k then some (((bucketOf k acc).getD []) ++ [e])
        else bucketOf k acc := by
  intro acc
  induction acc with
  | nil =>
    by_cases h : k9 = k <;>
      simp [upsertBucket, bucketOf, List.find?, h]
  | cons p rest ih =>
    obtain ⟨k0, es0⟩ := p
    by_cases h0 : k0 = k9
    · subst h0
      by_cases hk : k0 = k
      · subst hk
        simp [upsertBucket, bucketOf, List.find?]
      · simp [upsertBucket, bucketOf, List.find?, hk]
    · by_cases hk : k0 = k
      · subst hk
        have hne : k9 ≠ k0 := fun hc => h0 hc.symm
        simp [upsertBucket, bucketOf, List.find?, h0, hne]
      · simp only [upsertBucket, if_neg h0]
        have hstep : ∀ r : List (κ × List α),
            bucketOf k ((k0, es0) :: r) = bucketOf k r := by
          intro r
          simp [bucketOf, List.find?, hk]
        rw [hstep, hstep, ih]

theorem groupByKey_append_singleton {κ α : Type} [DecidableEq κ]
    (key : α → κ) (l : List α) (e : α) :
    groupByKey key (l ++ [e]) =
      upsertBucket (key e) e (groupByKey key l) := by
  simp [groupByKey, List.foldl_append]

theorem bucketOf_groupByKey {κ α : Type} [DecidableEq κ] [DecidableEq α]
    (key : α → κ) (k : κ) (l : List α) :
    bucketOf k (groupByKey key l) =
      (if l.filter (fun a => decide (key a = k)) = [] then none
       else some (l.filter (fun a => decide (key a = k)))) := by
  induction l using List.reverseRecOn with
  | nil => simp [groupByKey, bucketOf, List.find?]
  | append_singleton l e ih =>
    rw [groupByKey_append_singleton, bucketOf_upsert, ih, List.filter_append]
    by_cases hke : key e = k
    · have hfe : List.filter (fun a => decide (key a = k)) [e] = [e] := by
        simp [List.filter, hke]
      rw [if_pos hke, hfe]
      by_cases hf : l.filter (fun a => decide (key a = k)) = []
      · simp [hf]
      · simp [hf]
    · have hfe : List.filter (fun a => decide (key a = k)) [e] = [] := by
        simp [List.filter, hke]
      rw [if_neg hke, hfe, List.append_nil]

theorem bucketOf_eq_none_iff {κ α : Type} [DecidableEq κ] (k : κ)
    (acc : List (κ × List α)) :
    bucketOf k acc = none ↔ k ∉ acc.map Prod.fst := by
  constructor
  · intro h hmem
    obtain ⟨p, hp, hpk⟩ := List.mem_map.mp hmem
    have hf : acc.find? (fun p => decide (p.1 = k)) = none := by
      cases hfind : acc.find? (fun p => decide (p.1 = k)) with
      | none => rfl
      | some q => rw [bucketOf, hfind] at h; exact Option.noConfusion h
    exact (List.find?_eq_none.mp hf p hp) (by simpa using hpk)
  · intro h
    rw [bucketOf]
    have hf : acc.find? (fun p => decide (p.1 = k)) = none := by
      rw [List.find?_eq_none]
      intro p hp hpk
      exact h (List.mem_map.mpr ⟨p, hp, by simpa using hpk⟩)
    rw [hf]
    rfl

theorem keys_upsert {κ α : Type} [DecidableEq κ] (k : κ) (e : α) :
    ∀ acc : List (κ × List α),
      (upsertBucket k e acc).map Prod.fst =
        if k ∈ acc.map Prod.fst then acc.map Prod.fst
        else acc.map Prod.fst ++ [k] := by
  intro acc
  induction acc with
  | nil => simp [upsertBucket]
  | cons p rest ih =>
    obtain ⟨k0, es0⟩ := p
    by_cases h0 : k0 = k
    · subst h0
      simp [upsertBucket]
    · have hne : k ≠ k0 := fun hc => h0 hc.symm
      simp only [upsertBucket, if_neg h0, List.map_cons, ih]
      by_cases hmem : k ∈ rest.map Prod.fst
      · simp [hmem, hne]
      · simp [hmem, hne]

theorem groupKeys_nodup {κ α : Type} [DecidableEq κ] (key : α → κ)
    (l : List α) : ((groupByKey key l).map Prod.fst).Nodup := by
  induction l using List.reverseRecOn with
  | nil => simp [groupByKey]
  | append_singleton l e ih =>
    rw [groupByKey_append_singleton, keys_upsert]
    by_cases hmem : key e ∈ (groupByKey key l).map Prod.fst
    · simpa [hmem] using ih
    · rw [if_neg hmem]
      refine List.nodup_append.mpr ⟨ih, List.nodup_singleton _, ?_⟩
      intro x hx hxe
      have hxk : x = key e := by simpa using hxe
      subst hxk
      exact hmem hx

theorem mem_bucketOf {κ α : Type} [DecidableEq κ] {k : κ} {es : List α} :
    ∀ {acc : List (κ × List α)}, (acc.map Prod.fst).Nodup →
      (k, es) ∈ acc → bucketOf k acc = some es := by
  intro acc
  induction acc with
  | nil => intro _ hm; exact absurd hm (List.not_mem_nil _)
  | cons p rest ih =>
    obtain ⟨k0, es0⟩ := p
    intro hnd hm
    rw [List.map_cons] at hnd
    have hnd9 := List.nodup_cons.mp hnd
    rcases List.mem_cons.mp hm with heq | hrest
    · have h1 : k = k0 := congrArg Prod.fst heq
      have h2 : es = es0 := congrArg Prod.snd heq
      subst h1
      subst h2
      simp [bucketOf, List.find?]
    · by_cases h0 : k0 = k
      · subst h0
        have hk : k0 ∈ rest.map Prod.fst :=
          List.mem_map.mpr ⟨(k0, es), hrest, rfl⟩
        exact absurd hk hnd9.1
      · have hstep : bucketOf k ((k0, es0) :: rest) = bucketOf k rest := by
          simp [bucketOf, List.find?, h0]
        rw [hstep]
        exact ih hnd9.2 hrest

theorem mem_groupByKey_eq_filter {κ α : Type} [DecidableEq κ]
    [DecidableEq α] {key : α → κ} {l : List α} {k : κ} {es : List α}
    (hm : (k, es) ∈ groupByKey key l) :
    es = l.filter (fun a => decide (key a = k)) := by
  have hb := mem_bucketOf (groupKeys_nodup key l) hm
  rw [bucketOf_groupByKey] at hb
  by_cases hf : l.filter (fun a => decide (key a = k)) = []
  · rw [if_pos hf] at hb; exact Option.noConfusion hb
  · rw [if_neg hf] at hb
    exact (Option.some.inj hb).symm

theorem key_mem_groupKeys {κ α : Type} [DecidableEq κ] [DecidableEq α]
    (key : α → κ) {l : List α} {a : α} (ha : a ∈ l) :
    key a ∈ (groupByKey key l).map Prod.fst := by
  by_contra hk
  have hnone := (bucketOf_eq_none_iff (key a) (groupByKey key l)).mpr hk
  rw [bucketOf_groupByKey] at hnone
  have hmem : a ∈ l.filter (fun b => decide (key b = key a)) :=
    List.mem_filter.mpr ⟨ha, by simp⟩
  by_cases hf : l.filter (fun b => decide (key b = key a)) = []
  · rw [hf] at hmem; exact absurd hmem (List.not_mem_nil a)
  · rw [if_neg hf] at hnone; exact Option.noConfusion hnone

theorem count_flatten_buckets {κ α : Type} [DecidableEq κ] [DecidableEq α]
    (key : α → κ) (l : List α) :
    ∀ ps : List (κ × List α), (ps.map Prod.fst).Nodup →
      (∀ p ∈ ps, p.2 = l.filter (fun a => decide (key a = p.1))) →
      ∀ a : α, List.count a (ps.map Prod.snd).flatten =
        if key a ∈ ps.map Prod.fst then List.count a l else 0 := by
  intro ps
  induction ps with
  | nil => intro _ _ a; simp
  | cons p rest ih =>
    obtain ⟨k0, es0⟩ := p
    intro hnd hfl a
    rw [List.map_cons] at hnd
    have hnd9 := List.nodup_cons.mp hnd
    have hes0 : es0 = l.filter (fun a => decide (key a = k0)) :=
      hfl (k0, es0) (List.mem_cons_self _ _)
    have hcount0 : List.count a es0 =
        if key a = k0 then List.count a l else 0 := by
      by_cases hke : key a = k0
      · rw [if_pos hke, hes0]
        exact List.count_filter (by simp [hke])
      · rw [if_neg hke, hes0, List.count_eq_zero]
        intro hc
        exact hke (by simpa using (List.mem_filter.mp hc).2)
    have hrest := ih hnd9.2 (fun q hq => hfl q (List.mem_cons_of_mem _ hq)) a
    simp only [List.map_cons, List.flatten_cons, List.count_append,
      hcount0, hrest]
    by_cases hke : key a = k0
    · have hnot : key a ∉ rest.map Prod.fst := by rw [hke]; exact hnd9.1
      rw [if_pos hke, if_neg hnot,
        if_pos (List.mem_cons.mpr (Or.inl hke))]
      omega
    · rw [if_neg hke]
      by_cases hmem : key a ∈ rest.map Prod.fst
      · rw [if_pos hmem, if_pos (List.mem_cons.mpr (Or.inr hmem))]
        omega
      · rw [if_neg hmem, if_neg (fun hc => by
          rcases List.mem_cons.mp hc with h | h
          · exact hke h
          · exact hmem h)]

theorem groupByKey_flatten_perm {κ α : Type} [DecidableEq κ] [DecidableEq α]
    (key : α → κ) (l : List α) :
    ((groupByKey key l).map Prod.snd).flatten.Perm l := by
  rw [List.perm_iff_count]
  intro a
  rw [count_flatten_buckets key l (groupByKey key l) (groupKeys_nodup key l)
    (fun p hp => mem_groupByKey_eq_filter (by simpa using hp))]
  by_cases hmem : key a ∈ (groupByKey key l).map Prod.fst
  · rw [if_pos hmem]
  · rw [if_neg hmem]
    symm
    rw [List.count_eq_zero]
    intro ha
    exact hmem (key_mem_groupKeys key ha)

/-! ### Facts about the sort and the chunking -/

theorem insertByDesc_perm {β : Type} (gt : β → β → Bool) (x : β) :
    ∀ l : List β, (insertByDesc gt x l).Perm (x :: l) := by
  intro l
  induction l with
  | nil => simp [insertByDesc]
  | cons y ys ih =>
    by_cases h : gt x y
    · simp [insertByDesc, h]
    · simp only [insertByDesc, if_neg h]
      exact (ih.cons y).trans (List.Perm.swap x y ys)

theorem sortByDesc_perm {β : Type} (gt : β → β → Bool) :
    ∀ l : List β, (sortByDesc gt l).Perm l := by
  intro l
  induction l with
  | nil => simp [sortByDesc]
  | cons x xs ih =>
    have : sortByDesc gt (x :: xs) = insertByDesc gt x (sortByDesc gt xs) :=
      rfl
    rw [this]
    exact (insertByDesc_perm gt x _).trans (ih.cons x)

theorem chunkGo_nil {α : Type} (k fuel : Nat) :
    chunkGo k fuel ([] : List α) = [] := by
  cases fuel <;> rfl

theorem chunkGo_flatten {α : Type} (k : Nat) :
    ∀ (fuel : Nat) (l : List α), l.length ≤ fuel →
      (chunkGo k fuel l).flatten = l := by
  intro fuel
  induction fuel with
  | zero =>
    intro l h
    have : l = [] := List.eq_nil_of_length_eq_zero (Nat.le_zero.mp h)
    simp [this, chunkGo]
  | succ n ih =>
    intro l h
    cases l with
    | nil => simp [chunkGo]
    | cons x xs =>
      have hlen : (xs.drop k).length ≤ n := by
        simp only [List.length_drop]
        simp only [List.length_cons] at h
        omega
      simp only [chunkGo, List.flatten_cons, ih _ hlen]
      simp [List.take_append_drop]

theorem chunkGo_mem_bounds {α : Type} (k : Nat) :
    ∀ (fuel : Nat) (l : List α), ∀ r ∈ chunkGo k fuel l,
      r ≠ [] ∧ r.length ≤ k + 1 := by
  intro fuel
  induction fuel with
  | zero => intro l r hr; simp [chunkGo] at hr
  | succ n ih =>
    intro l r hr
    cases l with
    | nil => simp [chunkGo] at hr
    | cons x xs =>
      simp only [chunkGo, List.mem_cons] at hr
      rcases hr with rfl | hr
      · refine ⟨by simp, ?_⟩
        have := List.length_take_le k xs
        simp only [List.length_cons]
        omega
      · exact ih _ r hr

theorem chunkGo_dropLast_length {α : Type} (k : Nat) :
    ∀ (fuel : Nat) (l : List α), l.length ≤ fuel →
      ∀ r ∈ (chunkGo k fuel l).dropLast, r.length = k + 1 := by
  intro fuel
  induction fuel with
  | zero => intro l h r hr; simp [chunkGo] at hr
  | succ n ih =>
    intro l h r hr
    cases l with
    | nil => simp [chunkGo] at hr
    | cons x xs =>
      simp only [chunkGo] at hr
      cases hrest : chunkGo k n (xs.drop k) with
      | nil => rw [hrest] at hr; simp at hr
      | cons c cs =>
        rw [hrest, List.dropLast_cons_of_ne_nil (by simp), List.mem_cons]
          at hr
        rcases hr with rfl | hr
        · have hdrop : xs.drop k ≠ [] := by
            intro hc
            rw [hc, chunkGo_nil] at hrest
            exact List.noConfusion hrest
          have hk : k < xs.length := by
            by_contra hc
            exact hdrop (List.drop_eq_nil_of_le (by omega))
          simp only [List.length_cons, List.length_take]
          omega
        · have hlen : (xs.drop k).length ≤ n := by
            simp only [List.length_drop]
            simp only [List.length_cons] at h
            omega
          have := ih (xs.drop k) hlen r
          rw [hrest] at this
          exact this hr

/-! ### Claims C10 and C5 -/

/-- Claim C10: for every entry list and timezone, `sections` is a
lossless, order-preserving partition: each section's rows flatten to
exactly the input entries carrying that section's local-date key, in
input order; the concatenation of all sections is a permutation of the
input (nothing dropped or duplicated); section keys are pairwise
distinct; and every row has 1 to 3 entries, with every non-final row of
a section holding exactly 3. -/
theorem sections_partition (tz : Int) (entries : List HistoryEntry) :
    (∀ p ∈ sections tz entries,
        p.2.flatten =
          entries.filter (fun e => decide (entryLocalKey tz e = p.1))) ∧
    ((sections tz entries).map (fun p => p.2.flatten)).flatten.Perm entries ∧
    ((sections tz entries).map Prod.fst).Nodup ∧
    (∀ p ∈ sections tz entries,
        (∀ r ∈ p.2, r ≠ [] ∧ r.length ≤ 3) ∧
        ∀ r ∈ p.2.dropLast, r.length = 3) := by
  have hsort := sortByDesc_perm (fun p q => dateKeyGtb p.1 q.1)
    (groupByKey (entryLocalKey tz) entries)
  have hmemG : ∀ p ∈ sections tz entries,
      ∃ q ∈ groupByKey (entryLocalKey tz) entries,
        p = (q.1, chunkEntries q.2 3) := by
    intro p hp
    obtain ⟨q, hq, rfl⟩ := List.mem_map.mp hp
    exact ⟨q, hsort.mem_iff.mp hq, rfl⟩
  have hflatten : ∀ p ∈ sections tz entries,
      p.2.flatten =
        entries.filter (fun e => decide (entryLocalKey tz e = p.1)) := by
    intro p hp
    obtain ⟨q, hq, rfl⟩ := hmemG p hp
    have hfil : q.2 = entries.filter
        (fun e => decide (entryLocalKey tz e = q.1)) :=
      mem_groupByKey_eq_filter (by simpa using hq)
    show (chunkEntries q.2 3).flatten = _
    rw [chunkEntries]
    rw [chunkGo_flatten 2 q.2.length q.2 le_rfl]
    exact hfil
  refine ⟨hflatten, ?_, ?_, ?_⟩
  · have hmap : (sections tz entries).map (fun p => p.2.flatten) =
        (sortByDesc (fun p q => dateKeyGtb p.1 q.1)
          (groupByKey (entryLocalKey tz) entries)).map Prod.snd := by
      rw [sections, List.map_map]
      apply List.map_congr_left
      intro q _
      show (chunkEntries q.2 3).flatten = q.2
      rw [chunkEntries]
      exact chunkGo_flatten 2 q.2.length q.2 le_rfl
    rw [hmap]
    exact ((hsort.map Prod.snd).flatten).trans
      (groupByKey_flatten_perm (entryLocalKey tz) entries)
  · have hkeys : (sections tz entries).map Prod.fst =
        (sortByDesc (fun p q => dateKeyGtb p.1 q.1)
          (groupByKey (entryLocalKey tz) entries)).map Prod.fst := by
      rw [sections, List.map_map]
      rfl
    rw [hkeys]
    exact ((hsort.map Prod.fst).nodup_iff).mpr
      (groupKeys_nodup (entryLocalKey tz) entries)
  · intro p hp
    obtain ⟨q, _, rfl⟩ := hmemG p hp
    constructor
    · intro r hr
      have hb := chunkGo_mem_bounds 2 q.2.length q.2 r (by
        simpa [chunkEntries] using hr)
      exact ⟨hb.1, by omega⟩
    · intro r hr
      have hb := chunkGo_dropLast_length 2 q.2.length q.2 le_rfl r
        (by simpa [chunkEntries] using hr)
      omega

/-- First entry of the claim C5 scenario: UTC instant
2024-01-15T23:50:00Z. -/
def c5Entry₁ : HistoryEntry :=
  ⟨"e1", "http://server/1.jpg", daysFromCivil 2024 1 15 * 1440 + (23 * 60 + 50),
   none⟩

/-- Second entry of the claim C5 scenario: UTC instant
2024-01-16T00:10:00Z. -/
def c5Entry₂ : HistoryEntry :=
  ⟨"e2", "http://server/2.jpg", daysFromCivil 2024 1 16 * 1440 + 10, none⟩

/-- Claim C5: for a device at UTC-5 (timezone offset -300 minutes), the
entries with UTC instants 2024-01-15T23:50:00Z and 2024-01-16T00:10:00Z
land in the single local-date bucket 2024-01-15, even though their UTC
calendar dates (2024-01-15 and 2024-01-16) differ. -/
theorem sections_local_date_bucket :
    sections (-300) [c5Entry₁, c5Entry₂] =
      [((2024, 1, 15), [[c5Entry₁, c5Entry₂]])] ∧
    civilFromDays (c5Entry₁.timestampUtcMin.fdiv 1440) = (2024, 1, 15) ∧
    civilFromDays (c5Entry₂.timestampUtcMin.fdiv 1440) = (2024, 1, 16) := by
  decide

/-! ## History screen state model
(`src/DaingApp/components/HistoryScreen.tsx`) -/

/-- The alerts the history screen can raise; the UI text is fixed per
kind ("Delete Failed" with a retry invitation for the two delete
failures, a reload invitation for the load failure). -/
inductive AlertKind where
  | deleteFailed
  | batchDeleteFailed
  | historyLoadFailed
deriving DecidableEq

/-- The `useState` pieces of `HistoryScreen` that the claims concern
(lines 30 to 35). -/
structure HistState where
  entries : List HistoryEntry
  selectedEntry : Option HistoryEntry
  isDeleting : Bool
  selectedIds : Finset String
  isSelectionMode : Bool
deriving DecidableEq

/-- `handleDeleteEntry` (`HistoryScreen.tsx` lines 107 to 125): guarded
by `isDeleting`; on success the entry is filtered out of `entries` and
the single view closed; on failure the state is left unchanged and a
"Delete Failed" alert with a retry invitation is raised. -/
def handleDeleteEntry (del : Except NetError Unit) (entry : HistoryEntry)
    (s : HistState) : HistState × Option AlertKind :=
  if s.isDeleting then (s, none)
  else
    match del with
    | .ok _ =>
      ({ s with
          entries := s.entries.filter (fun it => !(it.id == entry.id)),
          selectedEntry := none }, none)
    | .error _ => (s, some .deleteFailed)

/-- Whether an axios promise resolved (did not reject). -/
def exceptOk {ε α : Type} (r : Except ε α) : Bool :=
  match r with
  | .ok _ => true
  | .error _ => false

/-- The confirmed branch of `handleBatchDelete` (`HistoryScreen.tsx`
lines 169 to 204): one delete call per selected id, awaited together
with `Promise.all`; only if every call succeeds are the selected ids
filtered out of `entries` and the selection cleared; if any call
rejects, the state is left unchanged and one alert covers the whole
batch. -/
def handleBatchDeleteConfirmed (del : String → Except NetError Unit)
    (s : HistState) : HistState × Option AlertKind :=
  if s.selectedIds = ∅ then (s, none)
  else if ∀ id ∈ s.selectedIds, exceptOk (del id) = true then
    ({ s with
        entries := s.entries.filter (fun it => decide (it.id ∉ s.selectedIds)),
        selectedIds := ∅,
        isSelectionMode := false }, none)
  else (s, some .batchDeleteFailed)

/-- `handleLongPress` (lines 141 to 144): enter selection mode seeded
with the pressed entry. -/
def handleLongPress (e : HistoryEntry) (s : HistState) : HistState :=
  { s with isSelectionMode := true, selectedIds := {e.id} }

/-- The selection toggle inside `handleImagePress` (lines 149 to 161). -/
def toggleSelect (id : String) (prev : Finset String) : Finset String :=
  if id ∈ prev then prev.erase id else insert id prev

/-- `handleImagePress` (lines 146 to 167): in selection mode, toggle the
id and leave selection mode when the set becomes empty; otherwise open
the single view. -/
def handleImagePress (e : HistoryEntry) (s : HistState) : HistState :=
  if s.isSelectionMode then
    let newSet := toggleSelect e.id s.selectedIds
    { s with
        selectedIds := newSet,
        isSelectionMode := if newSet = ∅ then false else s.isSelectionMode }
  else { s with selectedEntry := some e }

/-- `cancelSelection` (lines 698 to 701). -/
def cancelSelection (s : HistState) : HistState :=
  { s with selectedIds := ∅, isSelectionMode := false }

/-- The set update of `handleSelectAllInDate` (lines 703 to 722): if
every entry of the date bucket is selected, deselect them all, else
select them all. -/
def selectAllInDateSet (dateEntries : List HistoryEntry)
    (prev : Finset String) : Finset String :=
  if dateEntries.all (fun e => decide (e.id ∈ prev)) then
    dateEntries.foldl (fun acc e => acc.erase e.id) prev
  else
    dateEntries.foldl (fun acc e => insert e.id acc) prev

/-- `handleSelectAllInDate` as a state transition, including the
exit-selection-mode check on the resulting set. -/
def handleSelectAllInDate (dateEntries : List HistoryEntry)
    (s : HistState) : HistState :=
  let newSet := selectAllInDateSet dateEntries s.selectedIds
  { s with
      selectedIds := newSet,
      isSelectionMode := if newSet = ∅ then false else s.isSelectionMode }

/-- `loadHistory` (lines 88 to 101): replace the entries on success,
alert and keep them on failure. -/
def loadHistory (fetched : Except String (List HistoryEntry))
    (s : HistState) : HistState × Option AlertKind :=
  match fetched with
  | .ok data => ({ s with entries := data }, none)
  | .error _ => (s, some .historyLoadFailed)

/-- The user-visible events of the history screen that touch the
selection state. -/
inductive HistOp where
  | longPress (e : HistoryEntry)
  | imagePress (e : HistoryEntry)
  | cancel
  | selectAllInDate (dateEntries : List HistoryEntry)
  | batchDeleteConfirmed (del : String → Except NetError Unit)
  | deleteOne (del : Except NetError Unit) (e : HistoryEntry)
  | refresh (fetched : Except String (List HistoryEntry))

/-- One step of the history screen state machine. -/
def histStep (s : HistState) : HistOp → HistState
  | .longPress e => handleLongPress e s
  | .imagePress e => handleImagePress e s
  | .cancel => cancelSelection s
  | .selectAllInDate ds => handleSelectAllInDate ds s
  | .batchDeleteConfirmed del => (handleBatchDeleteConfirmed del s).1
  | .deleteOne del e => (handleDeleteEntry del e s).1
  | .refresh f => (loadHistory f s).1

/-- The claim C9 invariant: selection mode is active only with a
non-empty selection set. -/
def selectionInvariant (s : HistState) : Prop :=
  s.isSelectionMode = true → s.selectedIds.Nonempty

instance (s : HistState) : Decidable (selectionInvariant s) := by
  unfold selectionInvariant
  infer_instance

/-! ### Claim C7 -/

/-- Claim C7: when the single-entry delete call fails, the local entries
list is left exactly unchanged (so the entry stays present) and a
retryable "Delete Failed" alert is raised; the entries list is only ever
filtered after a successful delete. -/
theorem handleDeleteEntry_failure_semantics (entry : HistoryEntry)
    (s : HistState) (hnd : s.isDeleting = false) :
    (∀ e : NetError,
        (handleDeleteEntry (.error e) entry s).1 = s ∧
        (handleDeleteEntry (.error e) entry s).2 = some .deleteFailed) ∧
    (handleDeleteEntry (.ok ()) entry s).1.entries =
      s.entries.filter (fun it => !(it.id == entry.id)) ∧
    (∀ del : Except NetError Unit,
        (handleDeleteEntry del entry s).1.entries ≠ s.entries →
          del = .ok ()) := by
  refine ⟨fun e => ?_, ?_, fun del hne => ?_⟩
  · constructor <;> simp [handleDeleteEntry, hnd]
  · simp [handleDeleteEntry, hnd]
  · cases del with
    | ok u => rfl
    | error e => exact absurd (by simp [handleDeleteEntry, hnd]) hne

/-- Witness for claim C7 at a concrete state and failing transport. -/
theorem handleDeleteEntry_failure_semantics_witness :
    (handleDeleteEntry (.error ⟨"ERR_NETWORK", "Network Error"⟩) c5Entry₁
        ⟨[c5Entry₁, c5Entry₂], none, false, ∅, false⟩).1 =
      ⟨[c5Entry₁, c5Entry₂], none, false, ∅, false⟩ ∧
    (handleDeleteEntry (.error ⟨"ERR_NETWORK", "Network Error"⟩) c5Entry₁
        ⟨[c5Entry₁, c5Entry₂], none, false, ∅, false⟩).2 =
      some .deleteFailed :=
  (handleDeleteEntry_failure_semantics c5Entry₁
    ⟨[c5Entry₁, c5Entry₂], none, false, ∅, false⟩ rfl).1
    ⟨"ERR_NETWORK", "Network Error"⟩

/-! ### Claim C4 -/

/-- Claim C4 (amended): on a confirmed batch delete of a non-empty
selection, if every per-id delete succeeds then all selected ids are
removed from the local entries and the selection is cleared (exiting
selection mode); but if any per-id delete fails, the local entries list
is left entirely unchanged — ids whose deletes succeeded are NOT removed
— and a single alert covers the batch. -/
theorem handleBatchDelete_semantics (del : String → Except NetError Unit)
    (s : HistState) (hne : s.selectedIds ≠ ∅) :
    ((∀ id ∈ s.selectedIds, del id = .ok ()) →
        handleBatchDeleteConfirmed del s =
          ({ s with
              entries :=
                s.entries.filter (fun it => decide (it.id ∉ s.selectedIds)),
              selectedIds := ∅,
              isSelectionMode := false }, none)) ∧
    ((∃ id ∈ s.selectedIds, ∀ u : Unit, del id ≠ .ok u) →
        handleBatchDeleteConfirmed del s = (s, some .batchDeleteFailed)) := by
  constructor
  · intro hall
    rw [handleBatchDeleteConfirmed, if_neg hne,
      if_pos (fun id hid => by rw [hall id hid]; rfl)]
  · rintro ⟨id, hid, hfail⟩
    rw [handleBatchDeleteConfirmed, if_neg hne, if_neg ?_]
    intro hc
    have := hc id hid
    cases hdel : del id with
    | ok u => exact hfail u hdel
    | error e => rw [hdel] at this; exact Bool.noConfusion this

/-- Concrete per-id transport for the claim C4 counterexample: the
delete of `"e1"` succeeds, the delete of `"e2"` fails. -/
def c4Del : String → Except NetError Unit := fun id =>
  if id == "e1" then .ok ()
  else .error ⟨"ERR_BAD_RESPONSE", "Request failed with status code 500"⟩

/-- Concrete screen state for the claim C4 counterexample: both entries
loaded and selected. -/
def c4State : HistState :=
  ⟨[c5Entry₁, c5Entry₂], none, false, {"e1", "e2"}, true⟩

/-- Claim C4 counterexample: the delete of id `"e1"` succeeds and `"e1"`
is selected, yet after the confirmed batch delete the local entries list
is unchanged and the entry with id `"e1"` is still present — the
successfully-targeted id is not removed when some other delete fails. -/
theorem handleBatchDelete_partial_failure_counterexample :
    c4Del "e1" = .ok () ∧ "e1" ∈ c4State.selectedIds ∧
    (handleBatchDeleteConfirmed c4Del c4State).1.entries =
      c4State.entries ∧
    c5Entry₁ ∈ (handleBatchDeleteConfirmed c4Del c4State).1.entries ∧
    c5Entry₁.id = "e1" := by
  refine ⟨rfl, by decide, ?_, ?_, rfl⟩ <;> decide

/-- Witness for the amended claim C4 at a concrete all-succeed
transport. -/
theorem handleBatchDelete_semantics_witness :
    handleBatchDeleteConfirmed (fun _ => .ok ()) c4State =
      ({ c4State with
          entries :=
            c4State.entries.filter
              (fun it => decide (it.id ∉ c4State.selectedIds)),
          selectedIds := ∅,
          isSelectionMode := false }, none) :=
  (handleBatchDelete_semantics (fun _ => .ok ()) c4State (by decide)).1
    (fun _ _ => rfl)

/-! ### Claim C8 -/

theorem foldl_erase_eq_sdiff (dateEntries : List HistoryEntry) :
    ∀ prev : Finset String,
      dateEntries.foldl (fun acc e => acc.erase e.id) prev =
        prev \ (dateEntries.map HistoryEntry.id).toFinset := by
  induction dateEntries with
  | nil => intro prev; simp
  | cons e es ih =>
    intro prev
    rw [List.foldl_cons, ih]
    ext x
    simp only [Finset.mem_sdiff, Finset.mem_erase, List.map_cons,
      List.toFinset_cons, Finset.mem_insert, List.mem_toFinset,
      List.mem_map]
    aesop

theorem foldl_insert_eq_union (dateEntries : List HistoryEntry) :
    ∀ prev : Finset String,
      dateEntries.foldl (fun acc e => insert e.id acc) prev =
        prev ∪ (dateEntries.map HistoryEntry.id).toFinset := by
  induction dateEntries with
  | nil => intro prev; simp
  | cons e es ih =>
    intro prev
    rw [List.foldl_cons, ih]
    ext x
    simp only [Finset.mem_union, Finset.mem_insert, List.map_cons,
      List.toFinset_cons, List.mem_toFinset, List.mem_map]
    tauto

/-- Claim C8 (amended): applying the "select all in date" toggle twice
returns the selection to its original value whenever the date's entries
start out uniformly selected or uniformly unselected; from a mixed
selection, two applications instead leave every entry of the date
deselected (see the counterexample). -/
theorem selectAllInDate_double_toggle (dateEntries : List HistoryEntry)
    (prev : Finset String)
    (huni : (∀ e ∈ dateEntries, e.id ∈ prev) ∨
            (∀ e ∈ dateEntries, e.id ∉ prev)) :
    selectAllInDateSet dateEntries (selectAllInDateSet dateEntries prev) =
      prev := by
  have hids : ∀ e ∈ dateEntries,
      e.id ∈ (dateEntries.map HistoryEntry.id).toFinset :=
    fun e he => List.mem_toFinset.mpr (List.mem_map.mpr ⟨e, he, rfl⟩)
  cases dateEntries with
  | nil => simp [selectAllInDateSet]
  | cons e0 es =>
    rcases huni with hall | hnone
    · have hcond : (e0 :: es).all (fun e => decide (e.id ∈ prev)) = true :=
        List.all_eq_true.mpr (fun e he => by simp [hall e he])
      have hinner : selectAllInDateSet (e0 :: es) prev =
          prev \ ((e0 :: es).map HistoryEntry.id).toFinset := by
        rw [selectAllInDateSet, if_pos hcond, foldl_erase_eq_sdiff]
      have hcond2 : ((e0 :: es).all (fun e => decide (e.id ∈
          prev \ ((e0 :: es).map HistoryEntry.id).toFinset))) ≠ true := by
        intro hc
        have := List.all_eq_true.mp hc e0 (List.mem_cons_self _ _)
        rw [decide_eq_true_eq, Finset.mem_sdiff] at this
        exact this.2 (hids e0 (List.mem_cons_self _ _))
      rw [hinner, selectAllInDateSet, if_neg hcond2, foldl_insert_eq_union]
      ext x
      simp only [Finset.mem_union, Finset.mem_sdiff]
      constructor
      · rintro (⟨hx, _⟩ | hx)
        · exact hx
        · obtain ⟨e, he, rfl⟩ := List.mem_map.mp (List.mem_toFinset.mp hx)
          exact hall e he
      · intro hx
        by_cases hmem : x ∈ ((e0 :: es).map HistoryEntry.id).toFinset
        · exact Or.inr hmem
        · exact Or.inl ⟨hx, hmem⟩
    · by_cases hcond : (e0 :: es).all (fun e => decide (e.id ∈ prev)) = true
      · have := List.all_eq_true.mp hcond e0 (List.mem_cons_self _ _)
        exact absurd (by simpa using this)
          (hnone e0 (List.mem_cons_self _ _))
      · have hinner : selectAllInDateSet (e0 :: es) prev =
            prev ∪ ((e0 :: es).map HistoryEntry.id).toFinset := by
          rw [selectAllInDateSet, if_neg hcond, foldl_insert_eq_union]
        have hcond2 : ((e0 :: es).all (fun e => decide (e.id ∈
            prev ∪ ((e0 :: es).map HistoryEntry.id).toFinset))) = true := by
          rw [List.all_eq_true]
          intro e he
          simp only [decide_eq_true_eq, Finset.mem_union]
          exact Or.inr (hids e he)
        rw [hinner, selectAllInDateSet, if_pos hcond2, foldl_erase_eq_sdiff]
        ext x
        simp only [Finset.mem_sdiff, Finset.mem_union]
        constructor
        · rintro ⟨hx | hx, hnot⟩
          · exact hx
          · exact absurd hx hnot
        · intro hx
          refine ⟨Or.inl hx, fun hc => ?_⟩
          obtain ⟨e, he, rfl⟩ := List.mem_map.mp (List.mem_toFinset.mp hc)
          exact hnone e he hx

/-- Witness for the amended claim C8: a uniformly-unselected date bucket
toggled twice returns to the original selection. -/
theorem selectAllInDate_double_toggle_witness :
    selectAllInDateSet [c5Entry₁, c5Entry₂]
        (selectAllInDateSet [c5Entry₁, c5Entry₂] {"other"}) =
      {"other"} :=
  selectAllInDate_double_toggle [c5Entry₁, c5Entry₂] {"other"}
    (Or.inr (by decide))

/-- Claim C8 counterexample: with a mixed selection (only `"e1"` of the
two entries of the bucket selected), applying the toggle twice yields
the empty selection, not the original one. -/
theorem selectAllInDate_double_toggle_counterexample :
    selectAllInDateSet [c5Entry₁, c5Entry₂]
        (selectAllInDateSet [c5Entry₁, c5Entry₂] {"e1"}) ≠
      ({"e1"} : Finset String) := by
  decide

/-! ### Claim C9 -/

/-- Claim C9: every history-screen operation preserves the invariant
that selection mode is active only when the selection set is non-empty:
emptying operations (tap-deselect of the last id, select-all toggle
emptying the set, cancel, successful batch delete) exit selection mode,
and the only mode-entering operation (long-press) seeds the set with the
pressed id. -/
theorem histStep_preserves_selectionInvariant (s : HistState)
    (op : HistOp) (hinv : selectionInvariant s) :
    selectionInvariant (histStep s op) := by
  cases op with
  | longPress e =>
    intro _
    exact ⟨e.id, by simp [histStep, handleLongPress]⟩
  | imagePress e =>
    intro hmode
    by_cases hsel : s.isSelectionMode
    · simp only [histStep, handleImagePress, if_pos hsel] at hmode ⊢
      by_cases hempty : toggleSelect e.id s.selectedIds = ∅
      · rw [if_pos hempty] at hmode
        exact Bool.noConfusion hmode
      · exact Finset.nonempty_iff_ne_empty.mpr hempty
    · simp only [histStep, handleImagePress, if_neg hsel] at hmode ⊢
      exact hinv hmode
  | cancel =>
    intro hmode
    simp [histStep, cancelSelection] at hmode
  | selectAllInDate ds =>
    intro hmode
    simp only [histStep, handleSelectAllInDate] at hmode ⊢
    by_cases hempty : selectAllInDateSet ds s.selectedIds = ∅
    · rw [if_pos hempty] at hmode
      exact Bool.noConfusion hmode
    · exact Finset.nonempty_iff_ne_empty.mpr hempty
  | batchDeleteConfirmed del =>
    intro hmode
    by_cases hsel : s.selectedIds = ∅
    · simp only [histStep, handleBatchDeleteConfirmed, if_pos hsel]
        at hmode ⊢
      exact hinv hmode
    · by_cases hall : ∀ id ∈ s.selectedIds, exceptOk (del id) = true
      · simp [histStep, handleBatchDeleteConfirmed, if_neg hsel,
          if_pos hall] at hmode
      · simp only [histStep, handleBatchDeleteConfirmed, if_neg hsel,
          if_neg hall] at hmode ⊢
        exact hinv hmode
  | deleteOne del e =>
    intro hmode
    by_cases hdel : s.isDeleting
    · simp only [histStep, handleDeleteEntry, if_pos hdel] at hmode ⊢
      exact hinv hmode
    · cases del with
      | ok u =>
        simp only [histStep, handleDeleteEntry, if_neg hdel] at hmode ⊢
        exact hinv hmode
      | error e9 =>
        simp only [histStep, handleDeleteEntry, if_neg hdel] at hmode ⊢
        exact hinv hmode
  | refresh f =>
    intro hmode
    cases f with
    | ok data =>
      simp only [histStep, loadHistory] at hmode ⊢
      exact hinv hmode
    | error msg =>
      simp only [histStep, loadHistory] at hmode ⊢
      exact hinv hmode

/-- Witness for claim C9: the invariant holds of the initial state and
is preserved across a long-press step. -/
theorem histStep_preserves_selectionInvariant_witness :
    selectionInvariant ⟨[], none, false, ∅, false⟩ ∧
    selectionInvariant
      (histStep ⟨[], none, false, ∅, false⟩ (.longPress c5Entry₁)) :=
  ⟨by decide,
   histStep_preserves_selectionInvariant ⟨[], none, false, ∅, false⟩
     (.longPress c5Entry₁) (by decide)⟩

end DaingGrader
